import Mathlib

/-!
# Verification of the valence packet codec and weather helpers

Shallow embedding of the `valence_protocol` packet codec (VarInt codec,
`PacketEncoder`, `PacketDecoder`) and of the weather helpers of
`crates/valence/src/instance/weather.rs`.

The codec sources are not part of the repository snapshot under `src/`
(only the benchmark harness that exercises them is), so the codec
definitions below are modelled from the specification, faithful to its
words; the weather helpers are translated directly from the source.

Bytes are modelled as natural numbers (byte values are below 256), byte
buffers as `List Nat`, `i32` values as `Int` with explicit reduction
modulo `2 ^ 32` where two complement reinterpretation matters.
-/

namespace Valence

/-- Reinterpretation of a signed 32-bit value as its unsigned bit pattern
(two complement), as a natural number below `2 ^ 32`. -/
def toU32 (v : Int) : Nat := (v % (2 ^ 32 : Int)).toNat

/-- Reinterpretation of an unsigned 32-bit pattern as a signed 32-bit value. -/
def toI32 (u : Nat) : Int := if u < 2 ^ 31 then (u : Int) else (u : Int) - 2 ^ 32

/-- Modelled from the spec: the VarInt encode loop, bounded by the maximum
width known at compile time (spec section 3).  Emits little-endian groups
of 7 bits with the high bit of every byte except the last set as a
continuation bit (spec sections 4.1 and 6). -/
def varIntEncodeGo : Nat → Nat → List Nat
  | 0, _ => []
  | fuel + 1, u =>
    if u < 128 then [u] else (u % 128 + 128) :: varIntEncodeGo fuel (u / 128)

/-- Modelled from the spec: VarInt encoding of an unsigned 32-bit pattern;
five bytes suffice for every 32-bit pattern (spec section 4.1). -/
def varIntEncodeNat (u : Nat) : List Nat := varIntEncodeGo 5 u

/-- Modelled from the spec: VarInt encoding of a signed 32-bit value; the
value is treated as its unsigned bit pattern (spec section 4.1). -/
def varIntEncode (v : Int) : List Nat := varIntEncodeNat (toU32 v)

/-- Failure cases of VarInt decoding: the source ran out of bytes before a
byte without the continuation bit was found, or the maximum width of five
bytes was exceeded (spec section 4.1). -/
inductive VarIntError where
  | incomplete
  | malformed
deriving DecidableEq, Repr

/-- Modelled from the spec: the VarInt decode loop.  Reads bytes until a
byte without the continuation bit is found, accumulating 7 payload bits per
byte at increasing shifts with unsigned 32-bit wraparound; fails with
`malformed` once the maximum width of five bytes is exceeded (spec
section 4.1). -/
def varIntDecodeGo : List Nat → Nat → Nat → Except VarIntError (Int × List Nat)
  | [], _, _ => .error .incomplete
  | b :: rest, acc, i =>
    let acc2 := (acc + b % 128 * 2 ^ (7 * i)) % 2 ^ 32
    if b % 256 < 128 then .ok (toI32 acc2, rest)
    else if i + 1 < 5 then varIntDecodeGo rest acc2 (i + 1)
    else .error .malformed

/-- Modelled from the spec: VarInt decoding from the front of a byte
source, returning the decoded value and the unconsumed remainder. -/
def varIntDecode (bs : List Nat) : Except VarIntError (Int × List Nat) :=
  varIntDecodeGo bs 0 0

theorem varIntEncodeGo_length_le (fuel : Nat) :
    ∀ u : Nat, (varIntEncodeGo fuel u).length ≤ fuel := by
  induction fuel with
  | zero => intro u; exact Nat.le_refl _
  | succ fuel ih =>
    intro u
    rw [varIntEncodeGo]
    split
    · simp
    · simp only [List.length_cons]
      have := ih (u / 128)
      omega

theorem varIntEncodeNat_length_pos (u : Nat) : 1 ≤ (varIntEncodeNat u).length := by
  rw [varIntEncodeNat, varIntEncodeGo]
  split <;> simp

theorem varIntEncodeNat_length_le (u : Nat) : (varIntEncodeNat u).length ≤ 5 :=
  varIntEncodeGo_length_le 5 u

theorem varIntEncode_length_pos (v : Int) : 1 ≤ (varIntEncode v).length :=
  varIntEncodeNat_length_pos (toU32 v)

theorem varIntEncode_length_le (v : Int) : (varIntEncode v).length ≤ 5 :=
  varIntEncodeNat_length_le (toU32 v)

theorem toNat_intOfNat (n : Nat) : (Int.ofNat n).toNat = n := by
  rw [Int.ofNat_eq_natCast, Int.toNat_natCast]

theorem toI32_toU32 (v : Int) (h1 : -(2 ^ 31) ≤ v) (h2 : v < 2 ^ 31) :
    toI32 (toU32 v) = v := by
  unfold toI32 toU32
  split <;> omega

theorem toU32_lt (v : Int) : toU32 v < 2 ^ 32 := by
  unfold toU32
  omega

theorem varIntDecodeGo_encodeGo (fuel : Nat) :
    ∀ u i acc rest, 1 ≤ fuel → u < 128 ^ fuel → fuel + i ≤ 5 →
      varIntDecodeGo (varIntEncodeGo fuel u ++ rest) acc i =
        .ok (toI32 ((acc + u * 2 ^ (7 * i)) % 2 ^ 32), rest) := by
  induction fuel with
  | zero => intro u i acc rest hf _ _; omega
  | succ fuel ih =>
    intro u i acc rest _ hu hi
    rw [varIntEncodeGo]
    by_cases h : u < 128
    · simp only [if_pos h, List.cons_append, List.nil_append, varIntDecodeGo]
      rw [if_pos (by omega : u % 256 < 128)]
      rw [Nat.mod_eq_of_lt h]
    · simp only [if_neg h, List.cons_append, varIntDecodeGo]
      rw [if_neg (by omega : ¬ (u % 128 + 128) % 256 < 128)]
      have hfuel : 1 ≤ fuel := by
        by_contra hz
        have : fuel = 0 := by omega
        subst this
        have hu' : u < 128 := by simpa using hu
        omega
      rw [if_pos (by omega : i + 1 < 5)]
      have hdiv : u / 128 < 128 ^ fuel := by
        rw [Nat.div_lt_iff_lt_mul (by norm_num)]
        calc u < 128 ^ (fuel + 1) := hu
        _ = 128 ^ fuel * 128 := by ring
      rw [ih (u / 128) (i + 1) _ rest hfuel hdiv (by omega)]
      congr 2
      have hmod : (u % 128 + 128) % 128 = u % 128 := by omega
      rw [hmod, Nat.mod_add_mod]
      congr 1
      have hpow : 2 ^ (7 * (i + 1)) = 2 ^ (7 * i) * 128 := by
        rw [show 7 * (i + 1) = 7 * i + 7 from by ring, pow_add]
        norm_num
      rw [hpow]
      have : u % 128 * 2 ^ (7 * i) + u / 128 * (2 ^ (7 * i) * 128) =
          (u % 128 + 128 * (u / 128)) * 2 ^ (7 * i) := by ring
      rw [add_assoc, this, Nat.mod_add_div]

/-- VarInt round trip on the unsigned level, with an arbitrary unconsumed
suffix. -/
theorem varIntDecode_encode_append (v : Int) (rest : List Nat)
    (h1 : -(2 ^ 31) ≤ v) (h2 : v < 2 ^ 31) :
    varIntDecode (varIntEncode v ++ rest) = .ok (v, rest) := by
  unfold varIntDecode varIntEncode varIntEncodeNat
  have hlt : toU32 v < 128 ^ 5 := by
    calc toU32 v < 2 ^ 32 := toU32_lt v
    _ < 128 ^ 5 := by norm_num
  rw [varIntDecodeGo_encodeGo 5 (toU32 v) 0 0 rest (by omega) hlt (by omega)]
  simp only [Nat.zero_add, Nat.mul_zero, pow_zero, mul_one]
  rw [Nat.mod_eq_of_lt (toU32_lt v), toI32_toU32 v h1 h2]

theorem varIntDecode_encode (v : Int) (h1 : -(2 ^ 31) ≤ v) (h2 : v < 2 ^ 31) :
    varIntDecode (varIntEncode v) = .ok (v, []) := by
  have := varIntDecode_encode_append v [] h1 h2
  simpa using this

theorem varIntDecodeGo_cont (b : Nat) (rest : List Nat) (acc i : Nat)
    (hb : ¬ b % 256 < 128) (hi : i + 1 < 5) :
    varIntDecodeGo (b :: rest) acc i =
      varIntDecodeGo rest ((acc + b % 128 * 2 ^ (7 * i)) % 2 ^ 32) (i + 1) := by
  simp only [varIntDecodeGo]
  rw [if_neg hb, if_pos hi]

theorem varIntDecodeGo_cont_malformed (b : Nat) (rest : List Nat) (acc i : Nat)
    (hb : ¬ b % 256 < 128) (hi : ¬ i + 1 < 5) :
    varIntDecodeGo (b :: rest) acc i = .error .malformed := by
  simp only [varIntDecodeGo]
  rw [if_neg hb, if_neg hi]

theorem varIntDecodeGo_stop (b : Nat) (rest : List Nat) (acc i : Nat)
    (hb : b % 256 < 128) :
    varIntDecodeGo (b :: rest) acc i =
      .ok (toI32 ((acc + b % 128 * 2 ^ (7 * i)) % 2 ^ 32), rest) := by
  simp only [varIntDecodeGo]
  rw [if_pos hb]

/-- Consumption discipline of the VarInt decode loop: a successful decode
consumes a nonempty prefix of at most `5 - i` bytes, depends only on that
prefix, and every strictly shorter cut of the source is incomplete. -/
theorem varIntDecodeGo_spec (bs : List Nat) :
    ∀ acc i v r, i ≤ 4 → varIntDecodeGo bs acc i = .ok (v, r) →
      ∃ m, 1 ≤ m ∧ m + i ≤ 5 ∧ m ≤ bs.length ∧ r = bs.drop m ∧
        (∀ t, varIntDecodeGo (bs.take m ++ t) acc i = .ok (v, t)) ∧
        (∀ k, k < m → varIntDecodeGo (bs.take k) acc i = .error .incomplete) := by
  induction bs with
  | nil =>
    intro acc i v r _ h
    simp [varIntDecodeGo] at h
  | cons b rest ih =>
    intro acc i v r hi h
    by_cases hb : b % 256 < 128
    · rw [varIntDecodeGo_stop b rest acc i hb] at h
      simp only [Except.ok.injEq, Prod.mk.injEq] at h
      refine ⟨1, le_refl 1, by omega, by simp, by simp [h.2], ?_, ?_⟩
      · intro t
        rw [List.take_succ_cons, List.take_zero, List.cons_append, List.nil_append]
        rw [varIntDecodeGo_stop b t acc i hb, h.1]
      · intro k hk
        have : k = 0 := by omega
        subst this
        simp [varIntDecodeGo]
    · by_cases hc : i + 1 < 5
      · rw [varIntDecodeGo_cont b rest acc i hb hc] at h
        obtain ⟨m, hm1, hm5, hmlen, hr, hdet, hinc⟩ :=
          ih ((acc + b % 128 * 2 ^ (7 * i)) % 2 ^ 32) (i + 1) v r (by omega) h
        refine ⟨m + 1, by omega, by omega, by simp; omega, ?_, ?_, ?_⟩
        · rw [hr, List.drop_succ_cons]
        · intro t
          rw [List.take_succ_cons, List.cons_append,
            varIntDecodeGo_cont b _ acc i hb hc]
          exact hdet t
        · intro k hk
          match k with
          | 0 => simp [varIntDecodeGo]
          | k' + 1 =>
            rw [List.take_succ_cons, varIntDecodeGo_cont b _ acc i hb hc]
            exact hinc k' (by omega)
      · rw [varIntDecodeGo_cont_malformed b rest acc i hb hc] at h
        exact absurd h (by simp)

/-- C1: For every i32 value v, VarInt decode applied to VarInt encode of v
returns v, and the encoded form of v is between 1 and 5 bytes long. -/
theorem c1_varint_roundtrip (v : Int) (h1 : -(2 ^ 31) ≤ v) (h2 : v < 2 ^ 31) :
    varIntDecode (varIntEncode v) = .ok (v, []) ∧
      1 ≤ (varIntEncode v).length ∧ (varIntEncode v).length ≤ 5 := by
  exact ⟨varIntDecode_encode v h1 h2, varIntEncodeNat_length_pos (toU32 v),
    varIntEncodeNat_length_le (toU32 v)⟩

theorem c1_varint_roundtrip_witness :
    varIntDecode (varIntEncode (-1)) = .ok (-1, []) ∧
      1 ≤ (varIntEncode (-1)).length ∧ (varIntEncode (-1)).length ≤ 5 :=
  c1_varint_roundtrip (-1) (by decide) (by decide)

/-- C7: For every byte source in which the first 5 bytes all have the
continuation bit set, VarInt decode fails with a malformed var-int error
rather than returning a value; decode never reads more than 5 bytes. -/
theorem c7_varint_malformed :
    (∀ b0 b1 b2 b3 b4 : Nat, ∀ rest : List Nat,
      128 ≤ b0 → b0 < 256 → 128 ≤ b1 → b1 < 256 → 128 ≤ b2 → b2 < 256 →
      128 ≤ b3 → b3 < 256 → 128 ≤ b4 → b4 < 256 →
      varIntDecode (b0 :: b1 :: b2 :: b3 :: b4 :: rest) = .error .malformed) ∧
    (∀ bs : List Nat, ∀ v : Int, ∀ r : List Nat,
      varIntDecode bs = .ok (v, r) → bs.length ≤ r.length + 5) := by
  constructor
  · intro b0 b1 b2 b3 b4 rest h0 h0' h1 h1' h2 h2' h3 h3' h4 h4'
    unfold varIntDecode
    rw [varIntDecodeGo_cont b0 _ _ _ (by omega) (by omega)]
    rw [varIntDecodeGo_cont b1 _ _ _ (by omega) (by omega)]
    rw [varIntDecodeGo_cont b2 _ _ _ (by omega) (by omega)]
    rw [varIntDecodeGo_cont b3 _ _ _ (by omega) (by omega)]
    rw [varIntDecodeGo_cont_malformed b4 _ _ _ (by omega) (by omega)]
  · intro bs v r h
    obtain ⟨m, hm1, hm5, hmlen, hr, -, -⟩ :=
      varIntDecodeGo_spec bs 0 0 v r (by omega) h
    have : r.length = bs.length - m := by rw [hr, List.length_drop]
    omega

theorem c7_varint_malformed_witness :
    varIntDecode [200, 201, 202, 203, 204, 7] = .error .malformed ∧
      ([0, 9] : List Nat).length ≤ ([9] : List Nat).length + 5 :=
  ⟨c7_varint_malformed.1 200 201 202 203 204 [7]
      (by decide) (by decide) (by decide) (by decide) (by decide)
      (by decide) (by decide) (by decide) (by decide) (by decide),
    c7_varint_malformed.2 [0, 9] 0 [9] rfl⟩

/-- A decoded packet: its wire identifier and the bytes of its fields.
The packet catalog is abstracted at the byte level, as the spec treats it
as an external collaborator: a packet knows its id and its field bytes
(spec sections 1 and 4.3). -/
structure Packet where
  id : Int
  fields : List Nat
deriving DecidableEq, Repr

/-- Modelled from the spec: the encoder state, an owned output buffer and
a compression threshold, `none` meaning compression disabled (spec
section 3, Encoder state). -/
structure PacketEncoder where
  buf : List Nat
  compression : Option Nat
deriving DecidableEq, Repr

/-- Modelled from the spec: `PacketEncoder::append_packet`.  Serializes
`VarInt(id) ++ fields` into a scratch buffer; a field serialization
failure aborts the call with the output buffer untouched.  With
compression disabled the frame is `VarInt(scratch_len) ++ scratch`; with
compression enabled and `scratch_len > threshold` the frame is
`VarInt(compressed_frame_len) ++ VarInt(scratch_len) ++ compressed`;
otherwise `VarInt(frame_len) ++ VarInt(0) ++ scratch` (spec section 4.4).
The deflate compressor is an external collaborator and is passed as the
function argument `compress`. -/
def appendPacketBody (compress : List Nat → List Nat) (e : PacketEncoder)
    (pid : Int) (wfields : Except String (List Nat)) :
    PacketEncoder × Except String Unit :=
  match wfields with
  | .error msg => (e, .error msg)
  | .ok fs =>
    let scratch := varIntEncode pid ++ fs
    let frame :=
      match e.compression with
      | none => varIntEncode (Int.ofNat scratch.length) ++ scratch
      | some threshold =>
        if scratch.length > threshold then
          let inner := varIntEncode (Int.ofNat scratch.length) ++ compress scratch
          varIntEncode (Int.ofNat inner.length) ++ inner
        else
          let inner := varIntEncode 0 ++ scratch
          varIntEncode (Int.ofNat inner.length) ++ inner
    ({ e with buf := e.buf ++ frame }, .ok ())

/-- Appending a whole packet whose field serialization succeeds. -/
def appendPacket (compress : List Nat → List Nat) (e : PacketEncoder)
    (p : Packet) : PacketEncoder × Except String Unit :=
  appendPacketBody compress e p.id (.ok p.fields)

/-- C2: With compression disabled, Encoder.append of a packet appends
exactly VarInt(body_len) followed by the body (VarInt(packet_id) then the
fields), with no inner length prefix; in particular, for a packet with
id 5 and a 3-byte field payload the output bytes are [4, 5, then the 3
field bytes]. -/
theorem c2_append_uncompressed (compress : List Nat → List Nat)
    (buf : List Nat) (pid : Int) (fs : List Nat) :
    appendPacketBody compress ⟨buf, none⟩ pid (.ok fs) =
      (⟨buf ++ varIntEncode (Int.ofNat (varIntEncode pid ++ fs).length) ++
          (varIntEncode pid ++ fs), none⟩, .ok ()) ∧
    (appendPacketBody (fun l => l) ⟨[], none⟩ 5 (.ok [7, 8, 9])).1.buf =
      [4, 5, 7, 8, 9] := by
  constructor
  · simp [appendPacketBody]
  · decide

/-- C8: For every encoder state and every packet whose field serialization
fails, Encoder.append returns an encode error and leaves the output buffer
byte-for-byte equal to its contents before the call (no partial frame is
committed). -/
theorem c8_append_error_no_commit (compress : List Nat → List Nat)
    (e : PacketEncoder) (pid : Int) (msg : String) :
    appendPacketBody compress e pid (.error msg) = (e, .error msg) := by
  simp [appendPacketBody]

/-- C3: With compression enabled at threshold t, for bodies longer than t
the appended frame is VarInt(compressed_frame_len) ++ VarInt(body_len) ++
compressed bytes; for bodies of length at most t it is VarInt(frame_len)
++ VarInt(0) ++ body, the 0 being the uncompressed sentinel. -/
theorem c3_append_compressed (compress : List Nat → List Nat)
    (buf : List Nat) (t : Nat) (pid : Int) (fs scratch : List Nat)
    (hs : scratch = varIntEncode pid ++ fs) :
    (scratch.length > t →
      appendPacketBody compress ⟨buf, some t⟩ pid (.ok fs) =
        (⟨buf ++
            varIntEncode (Int.ofNat
              (varIntEncode (Int.ofNat scratch.length) ++ compress scratch).length) ++
            (varIntEncode (Int.ofNat scratch.length) ++ compress scratch),
          some t⟩, .ok ())) ∧
    (scratch.length ≤ t →
      appendPacketBody compress ⟨buf, some t⟩ pid (.ok fs) =
        (⟨buf ++
            varIntEncode (Int.ofNat (varIntEncode 0 ++ scratch).length) ++
            (varIntEncode 0 ++ scratch),
          some t⟩, .ok ())) := by
  subst hs
  constructor
  · intro hgt
    simp only [appendPacketBody]
    rw [if_pos hgt]
    simp [List.append_assoc]
  · intro hle
    simp only [appendPacketBody]
    rw [if_neg (by omega : ¬ (varIntEncode pid ++ fs).length > t)]
    simp [List.append_assoc]

theorem c3_append_compressed_witness :
    (appendPacketBody (fun _ => [1, 2]) ⟨[], some 0⟩ 5 (.ok [7])).1.buf =
      [3, 2, 1, 2] ∧
    (appendPacketBody (fun _ => [1, 2]) ⟨[], some 10⟩ 5 (.ok [7])).1.buf =
      [3, 0, 5, 7] := by
  constructor
  · have h := (c3_append_compressed (fun _ => [1, 2]) [] 0 5 [7] _ rfl).1
      (by decide)
    rw [h]
    decide
  · have h := (c3_append_compressed (fun _ => [1, 2]) [] 10 5 [7] _ rfl).2
      (by decide)
    rw [h]
    decide

/-- Modelled from the spec: the decoder state, an owned input buffer of
bytes not yet consumed into a complete frame, a consumed-offset cursor,
and a compression-enabled flag (spec section 3, Decoder state). -/
structure PacketDecoder where
  buf : List Nat
  cursor : Nat
  compression : Bool
deriving DecidableEq, Repr

/-- Modelled from the spec: `PacketDecoder::queue`, which appends raw
bytes to the input buffer and never fails (spec section 4.5). -/
def queueBytes (d : PacketDecoder) (bs : List Nat) : PacketDecoder :=
  { d with buf := d.buf ++ bs }

/-- The bytes queued but not yet consumed. -/
def remaining (d : PacketDecoder) : List Nat := d.buf.drop d.cursor

/-- Modelled from the spec: decoding of a packet body, `VarInt(packet_id)`
followed by the field bytes; the field decoder of the matching packet type
consumes the body exactly to its end (spec section 4.5 step 3). -/
def decodePacketBody (pbody : List Nat) : Except String Packet :=
  match varIntDecode pbody with
  | .error _ => .error "malformed packet id"
  | .ok (pid, fieldBytes) => .ok ⟨pid, fieldBytes⟩

/-- Modelled from the spec: interpretation of a complete frame body.  With
compression disabled the frame body is the packet body verbatim; with
compression enabled an inner VarInt uncompressed-length is read first, the
sentinel 0 meaning the rest is the uncompressed packet body, any other
value meaning the rest must be inflated to exactly that many bytes by the
external decompressor `dcmp` (spec sections 4.2 and 4.5 step 2). -/
def decodeFrameBody (dcmp : List Nat → Nat → Except String (List Nat))
    (compression : Bool) (body : List Nat) : Except String Packet :=
  if compression then
    match varIntDecode body with
    | .error _ => .error "malformed inner length"
    | .ok (ulen, afterLen) =>
      if ulen = 0 then decodePacketBody afterLen
      else
        match dcmp afterLen ulen.toNat with
        | .error e => .error e
        | .ok inflated => decodePacketBody inflated
  else decodePacketBody body

/-- Outcome of one attempt to peel a frame from the front of a byte
buffer: a decoded packet together with the number of consumed bytes, the
incomplete signal, or a decode error. -/
inductive FrameResult where
  | incomplete
  | err (msg : String)
  | ok (p : Packet) (consumed : Nat)
deriving DecidableEq, Repr

/-- Modelled from the spec: one attempt to peel exactly one frame from the
front of the unconsumed bytes (spec section 4.5, `try_next`).  A frame
length that cannot yet be decoded for lack of bytes, or that exceeds the
bytes currently buffered, yields `incomplete`; a malformed length prefix
and every failure inside a complete frame yield a decode error. -/
def tryNextFrame (dcmp : List Nat → Nat → Except String (List Nat))
    (compression : Bool) (bs : List Nat) : FrameResult :=
  match varIntDecode bs with
  | .error .incomplete => .incomplete
  | .error .malformed => .err "malformed frame length"
  | .ok (len, afterLen) =>
    if len.toNat ≤ afterLen.length then
      match decodeFrameBody dcmp compression (afterLen.take len.toNat) with
      | .error e => .err e
      | .ok p => .ok p ((bs.length - afterLen.length) + len.toNat)
    else .incomplete

/-- Outcome of `try_next` as seen by the caller. -/
inductive TryNext where
  | incomplete
  | err (msg : String)
  | ok (p : Packet)
deriving DecidableEq, Repr

/-- Modelled from the spec: `PacketDecoder::try_next_packet`.  On success
the consumed bytes are permanently removed from the input buffer by
advancing the cursor past exactly one frame; on `incomplete` the state is
left untouched (spec section 4.5 step 4). -/
def tryNextPacket (dcmp : List Nat → Nat → Except String (List Nat))
    (d : PacketDecoder) : TryNext × PacketDecoder :=
  match tryNextFrame dcmp d.compression (remaining d) with
  | .incomplete => (.incomplete, d)
  | .err msg => (.err msg, d)
  | .ok p consumed => (.ok p, { d with cursor := d.cursor + consumed })

/-- A concrete decompressor used to instantiate the external deflate
collaborator in closed statements: it checks the declared length and
returns the bytes unchanged, pairing with the identity compressor. -/
def dcmpExact : List Nat → Nat → Except String (List Nat) := fun bs n =>
  if bs.length = n then .ok bs else .error "decompressed size mismatch"

/-- Inversion of a successful frame peel: the frame length VarInt decoded,
the declared length fitted in the buffered bytes, the frame body decoded
to the returned packet, and the consumed count is the length prefix plus
the declared frame length. -/
theorem tryNextFrame_ok_inv {dcmp : List Nat → Nat → Except String (List Nat)}
    {comp : Bool} {bs : List Nat} {p : Packet} {c : Nat}
    (hf : tryNextFrame dcmp comp bs = .ok p c) :
    ∃ len : Int, ∃ afterLen : List Nat,
      varIntDecode bs = .ok (len, afterLen) ∧
      len.toNat ≤ afterLen.length ∧
      c = (bs.length - afterLen.length) + len.toNat ∧
      decodeFrameBody dcmp comp (afterLen.take len.toNat) = .ok p := by
  unfold tryNextFrame at hf
  split at hf
  · exact absurd hf (by simp)
  · exact absurd hf (by simp)
  · rename_i len afterLen heq
    split at hf
    · rename_i hle
      split at hf
      · exact absurd hf (by simp)
      · rename_i q hb
        simp only [FrameResult.ok.injEq] at hf
        exact ⟨len, afterLen, heq, hle, hf.2.symm, by rw [hb, hf.1]⟩
    · exact absurd hf (by simp)

/-- A declared frame length exceeding the buffered bytes yields the
incomplete signal. -/
theorem tryNextFrame_short (dcmp : List Nat → Nat → Except String (List Nat))
    (comp : Bool) (bs : List Nat) (len : Int) (afterLen : List Nat)
    (hdec : varIntDecode bs = .ok (len, afterLen))
    (hlt : afterLen.length < len.toNat) :
    tryNextFrame dcmp comp bs = .incomplete := by
  unfold tryNextFrame
  simp only [hdec]
  rw [if_neg (show ¬ len.toNat ≤ afterLen.length by omega)]

/-- C5 counterexample: on a buffer of five continuation bytes the frame
length VarInt is malformed and try_next returns a decode error, which is
neither a decoded packet nor the incomplete signal, so the dichotomy
stated by the claim does not hold for every decoder state. -/
theorem c5_counterexample :
    (tryNextPacket dcmpExact ⟨[255, 255, 255, 255, 255], 0, false⟩).1 =
      .err "malformed frame length" ∧
    (tryNextPacket dcmpExact ⟨[255, 255, 255, 255, 255], 0, false⟩).1 ≠
      .incomplete := by
  constructor
  · rfl
  · intro h
    exact absurd h (by decide)

/-- C5 amended: for every decoder state, try_next returns a fully decoded
packet and removes exactly that one frame from the input buffer, or
returns incomplete and leaves the state unchanged, or returns a decode
error; a declared frame length exceeding the currently buffered bytes
always yields incomplete, never an error. -/
theorem c5_try_next_step (dcmp : List Nat → Nat → Except String (List Nat)) :
    (∀ d : PacketDecoder,
      (tryNextPacket dcmp d).1 = .incomplete → (tryNextPacket dcmp d).2 = d) ∧
    (∀ d : PacketDecoder, ∀ p : Packet, (tryNextPacket dcmp d).1 = .ok p →
      ∃ len : Int, ∃ afterLen : List Nat,
        varIntDecode (remaining d) = .ok (len, afterLen) ∧
        len.toNat ≤ afterLen.length ∧
        remaining (tryNextPacket dcmp d).2 = afterLen.drop len.toNat) ∧
    (∀ d : PacketDecoder, ∀ len : Int, ∀ afterLen : List Nat,
      varIntDecode (remaining d) = .ok (len, afterLen) →
      afterLen.length < len.toNat →
      (tryNextPacket dcmp d).1 = .incomplete) := by
  refine ⟨?_, ?_, ?_⟩
  · intro d h
    cases hf : tryNextFrame dcmp d.compression (remaining d) with
    | incomplete => simp [tryNextPacket, hf]
    | err m => exfalso; simp [tryNextPacket, hf] at h
    | ok p c => exfalso; simp [tryNextPacket, hf] at h
  · intro d p h
    cases hf : tryNextFrame dcmp d.compression (remaining d) with
    | incomplete => exfalso; simp [tryNextPacket, hf] at h
    | err m => exfalso; simp [tryNextPacket, hf] at h
    | ok q c =>
      have hq : q = p := by simpa [tryNextPacket, hf] using h
      subst hq
      obtain ⟨len, afterLen, hdec, hle, hc, -⟩ := tryNextFrame_ok_inv hf
      refine ⟨len, afterLen, hdec, hle, ?_⟩
      have h2 : (tryNextPacket dcmp d).2 =
          { d with cursor := d.cursor + c } := by
        simp [tryNextPacket, hf]
      rw [h2]
      obtain ⟨m, hm1, hm5, hmlen, hr, -, -⟩ :=
        varIntDecodeGo_spec (remaining d) 0 0 len afterLen (by omega) hdec
      have hlen : afterLen.length = (remaining d).length - m := by
        rw [hr, List.length_drop]
      simp only [remaining]
      rw [hr]
      rw [show remaining d = d.buf.drop d.cursor from rfl]
      rw [List.drop_drop, List.drop_drop]
      congr 1
      omega
  · intro d len afterLen hdec hlt
    have hf : tryNextFrame dcmp d.compression (remaining d) = .incomplete :=
      tryNextFrame_short dcmp d.compression (remaining d) len afterLen hdec hlt
    simp [tryNextPacket, hf]

theorem c5_try_next_step_witness :
    (tryNextPacket dcmpExact ⟨[], 0, false⟩).2 = ⟨[], 0, false⟩ ∧
    (∃ len : Int, ∃ afterLen : List Nat,
      varIntDecode (remaining ⟨[2, 7, 9], 0, false⟩) = .ok (len, afterLen) ∧
      len.toNat ≤ afterLen.length ∧
      remaining (tryNextPacket dcmpExact ⟨[2, 7, 9], 0, false⟩).2 =
        afterLen.drop len.toNat) ∧
    (tryNextPacket dcmpExact ⟨[10], 0, false⟩).1 = .incomplete :=
  ⟨(c5_try_next_step dcmpExact).1 ⟨[], 0, false⟩ rfl,
    (c5_try_next_step dcmpExact).2.1 ⟨[2, 7, 9], 0, false⟩ ⟨7, [9]⟩ rfl,
    (c5_try_next_step dcmpExact).2.2 ⟨[10], 0, false⟩ 10 [] rfl (by decide)⟩

theorem varIntDecode_encode_ofNat (n : Nat) (rest : List Nat) (h : n < 2 ^ 31) :
    varIntDecode (varIntEncode (Int.ofNat n) ++ rest) = .ok (Int.ofNat n, rest) := by
  apply varIntDecode_encode_append <;> rw [Int.ofNat_eq_natCast] <;> omega

theorem decodePacketBody_encode (pid : Int) (fs : List Nat)
    (h1 : -(2 ^ 31) ≤ pid) (h2 : pid < 2 ^ 31) :
    decodePacketBody (varIntEncode pid ++ fs) = .ok ⟨pid, fs⟩ := by
  unfold decodePacketBody
  simp only [varIntDecode_encode_append pid fs h1 h2]

theorem decodeFrameBody_plain (dcmp : List Nat → Nat → Except String (List Nat))
    (pid : Int) (fs : List Nat) (h1 : -(2 ^ 31) ≤ pid) (h2 : pid < 2 ^ 31) :
    decodeFrameBody dcmp false (varIntEncode pid ++ fs) = .ok ⟨pid, fs⟩ := by
  unfold decodeFrameBody
  simp only [Bool.false_eq_true, if_false]
  exact decodePacketBody_encode pid fs h1 h2

theorem decodeFrameBody_sentinel (dcmp : List Nat → Nat → Except String (List Nat))
    (scratch : List Nat) (q : Packet) (hq : decodePacketBody scratch = .ok q) :
    decodeFrameBody dcmp true (varIntEncode 0 ++ scratch) = .ok q := by
  unfold decodeFrameBody
  have hdec : varIntDecode (varIntEncode 0 ++ scratch) = .ok (0, scratch) :=
    varIntDecode_encode_append 0 scratch (by norm_num) (by norm_num)
  rw [if_pos rfl]
  simp only [hdec]
  simpa using hq

theorem decodeFrameBody_inflate (dcmp : List Nat → Nat → Except String (List Nat))
    (compressed scratch : List Nat) (q : Packet)
    (hlen1 : 1 ≤ scratch.length) (hlen2 : scratch.length < 2 ^ 31)
    (hdc : dcmp compressed scratch.length = .ok scratch)
    (hq : decodePacketBody scratch = .ok q) :
    decodeFrameBody dcmp true
      (varIntEncode (Int.ofNat scratch.length) ++ compressed) = .ok q := by
  unfold decodeFrameBody
  have hdec := varIntDecode_encode_ofNat scratch.length compressed hlen2
  rw [if_pos rfl]
  simp only [hdec]
  rw [if_neg (show ¬ (Int.ofNat scratch.length : Int) = 0 by
    rw [Int.ofNat_eq_natCast]; omega)]
  rw [toNat_intOfNat, hdc]
  simp only [hq]

/-- Peeling a well-formed frame `VarInt(inner_len) ++ inner` whose body
decodes successfully yields the packet and consumes the whole frame. -/
theorem tryNextFrame_of_frame (dcmp : List Nat → Nat → Except String (List Nat))
    (flag : Bool) (inner : List Nat) (q : Packet)
    (hlen : inner.length < 2 ^ 31)
    (hbody : decodeFrameBody dcmp flag inner = .ok q) :
    tryNextFrame dcmp flag (varIntEncode (Int.ofNat inner.length) ++ inner) =
      .ok q (varIntEncode (Int.ofNat inner.length) ++ inner).length := by
  have hdec := varIntDecode_encode_ofNat inner.length inner hlen
  unfold tryNextFrame
  simp only [hdec, toNat_intOfNat, le_refl, if_true, List.take_length, hbody]
  congr 1
  rw [List.length_append]
  omega

/-- Queueing one complete frame into a fresh decoder yields the packet
and consumes everything; asking again on the drained decoder yields the
incomplete signal. -/
theorem roundtrip_assemble (dcmp : List Nat → Nat → Except String (List Nat))
    (flag : Bool) (bytes : List Nat) (p : Packet)
    (hframe : tryNextFrame dcmp flag bytes = .ok p bytes.length) :
    tryNextPacket dcmp (queueBytes ⟨[], 0, flag⟩ bytes) =
      (.ok p, ⟨bytes, bytes.length, flag⟩) ∧
    tryNextPacket dcmp ⟨bytes, bytes.length, flag⟩ =
      (.incomplete, ⟨bytes, bytes.length, flag⟩) := by
  constructor
  · have hrem : remaining (queueBytes ⟨[], 0, flag⟩ bytes) = bytes := by
      simp [remaining, queueBytes]
    simp [tryNextPacket, queueBytes, remaining, hframe]
  · have hrem : remaining ⟨bytes, bytes.length, flag⟩ = [] := by
      simp [remaining]
    have hempty : tryNextFrame dcmp flag ([] : List Nat) = .incomplete := rfl
    simp [tryNextPacket, hrem, hempty]

/-- C4: For any packet p, appending p to a fresh encoder, queueing the
produced bytes into a fresh decoder, and calling try_next yields a value
structurally equal to p, and a second try_next on the now-empty decoder
returns incomplete; the same holds with compression enabled on both sides,
both above and below the threshold.  The deflate pair is abstracted by
`compress` and `dcmp` together with the round-trip contract of spec
section 4.2. -/
theorem c4_encode_decode_roundtrip
    (compress : List Nat → List Nat)
    (dcmp : List Nat → Nat → Except String (List Nat))
    (cfg : Option Nat) (p : Packet) (bytes : List Nat)
    (hdc : ∀ l : List Nat, dcmp (compress l) l.length = .ok l)
    (hid1 : -(2 ^ 31) ≤ p.id) (hid2 : p.id < 2 ^ 31)
    (hflen : p.fields.length ≤ 2 ^ 20)
    (hclen : (compress (varIntEncode p.id ++ p.fields)).length ≤ 2 ^ 20)
    (hbytes : bytes = (appendPacket compress ⟨[], cfg⟩ p).1.buf) :
    (appendPacket compress ⟨[], cfg⟩ p).2 = .ok () ∧
    tryNextPacket dcmp (queueBytes ⟨[], 0, cfg.isSome⟩ bytes) =
      (.ok p, ⟨bytes, bytes.length, cfg.isSome⟩) ∧
    tryNextPacket dcmp ⟨bytes, bytes.length, cfg.isSome⟩ =
      (.incomplete, ⟨bytes, bytes.length, cfg.isSome⟩) := by
  have henc5 : (varIntEncode p.id).length ≤ 5 := varIntEncodeNat_length_le (toU32 p.id)
  have henc1 : 1 ≤ (varIntEncode p.id).length := varIntEncodeNat_length_pos (toU32 p.id)
  have hscr1 : 1 ≤ (varIntEncode p.id ++ p.fields).length := by
    rw [List.length_append]; omega
  have hscrsmall : (varIntEncode p.id ++ p.fields).length ≤ 2 ^ 20 + 5 := by
    rw [List.length_append]; omega
  have hscrlt : (varIntEncode p.id ++ p.fields).length < 2 ^ 31 := by omega
  have hq : decodePacketBody (varIntEncode p.id ++ p.fields) = .ok p :=
    decodePacketBody_encode p.id p.fields hid1 hid2
  cases cfg with
  | none =>
    have happ : appendPacket compress ⟨[], none⟩ p =
        (⟨varIntEncode (Int.ofNat (varIntEncode p.id ++ p.fields).length) ++
            (varIntEncode p.id ++ p.fields), none⟩, .ok ()) := by
      simp [appendPacket, appendPacketBody]
    have hbuf : bytes =
        varIntEncode (Int.ofNat (varIntEncode p.id ++ p.fields).length) ++
          (varIntEncode p.id ++ p.fields) := by
      rw [hbytes, happ]
    refine ⟨by rw [happ], ?_⟩
    have hbody : decodeFrameBody dcmp false (varIntEncode p.id ++ p.fields) = .ok p :=
      decodeFrameBody_plain dcmp p.id p.fields hid1 hid2
    have hframe := tryNextFrame_of_frame dcmp false
      (varIntEncode p.id ++ p.fields) p hscrlt hbody
    rw [hbuf]
    exact roundtrip_assemble dcmp false _ p hframe
  | some t =>
    by_cases hth : (varIntEncode p.id ++ p.fields).length > t
    · have happ : appendPacket compress ⟨[], some t⟩ p =
          (⟨varIntEncode (Int.ofNat
              (varIntEncode (Int.ofNat (varIntEncode p.id ++ p.fields).length) ++
                compress (varIntEncode p.id ++ p.fields)).length) ++
              (varIntEncode (Int.ofNat (varIntEncode p.id ++ p.fields).length) ++
                compress (varIntEncode p.id ++ p.fields)), some t⟩, .ok ()) := by
        simp only [appendPacket, appendPacketBody]
        rw [if_pos hth]
        simp
      have hbuf : bytes =
          varIntEncode (Int.ofNat
            (varIntEncode (Int.ofNat (varIntEncode p.id ++ p.fields).length) ++
              compress (varIntEncode p.id ++ p.fields)).length) ++
            (varIntEncode (Int.ofNat (varIntEncode p.id ++ p.fields).length) ++
              compress (varIntEncode p.id ++ p.fields)) := by
        rw [hbytes, happ]
      refine ⟨by rw [happ], ?_⟩
      have hinnerlt :
          (varIntEncode (Int.ofNat (varIntEncode p.id ++ p.fields).length) ++
            compress (varIntEncode p.id ++ p.fields)).length < 2 ^ 31 := by
        rw [List.length_append]
        have := varIntEncode_length_le
          (Int.ofNat (varIntEncode p.id ++ p.fields).length)
        omega
      have hbody : decodeFrameBody dcmp true
          (varIntEncode (Int.ofNat (varIntEncode p.id ++ p.fields).length) ++
            compress (varIntEncode p.id ++ p.fields)) = .ok p :=
        decodeFrameBody_inflate dcmp (compress (varIntEncode p.id ++ p.fields))
          (varIntEncode p.id ++ p.fields) p hscr1 hscrlt
          (hdc (varIntEncode p.id ++ p.fields)) hq
      have hframe := tryNextFrame_of_frame dcmp true
        (varIntEncode (Int.ofNat (varIntEncode p.id ++ p.fields).length) ++
          compress (varIntEncode p.id ++ p.fields)) p hinnerlt hbody
      rw [hbuf]
      exact roundtrip_assemble dcmp true _ p hframe
    · have happ : appendPacket compress ⟨[], some t⟩ p =
          (⟨varIntEncode (Int.ofNat
              (varIntEncode 0 ++ (varIntEncode p.id ++ p.fields)).length) ++
              (varIntEncode 0 ++ (varIntEncode p.id ++ p.fields)), some t⟩,
            .ok ()) := by
        simp only [appendPacket, appendPacketBody]
        rw [if_neg hth]
        simp
      have hbuf : bytes =
          varIntEncode (Int.ofNat
            (varIntEncode 0 ++ (varIntEncode p.id ++ p.fields)).length) ++
            (varIntEncode 0 ++ (varIntEncode p.id ++ p.fields)) := by
        rw [hbytes, happ]
      refine ⟨by rw [happ], ?_⟩
      have hinnerlt :
          (varIntEncode 0 ++ (varIntEncode p.id ++ p.fields)).length < 2 ^ 31 := by
        rw [List.length_append]
        have h0 : (varIntEncode 0).length = 1 := rfl
        omega
      have hbody : decodeFrameBody dcmp true
          (varIntEncode 0 ++ (varIntEncode p.id ++ p.fields)) = .ok p :=
        decodeFrameBody_sentinel dcmp (varIntEncode p.id ++ p.fields) p hq
      have hframe := tryNextFrame_of_frame dcmp true
        (varIntEncode 0 ++ (varIntEncode p.id ++ p.fields)) p hinnerlt hbody
      rw [hbuf]
      exact roundtrip_assemble dcmp true _ p hframe

theorem c4_encode_decode_roundtrip_witness :
    ((appendPacket (fun l => l) ⟨[], none⟩ ⟨5, [7, 8, 9]⟩).2 = .ok () ∧
      tryNextPacket dcmpExact (queueBytes ⟨[], 0, false⟩ [4, 5, 7, 8, 9]) =
        (.ok ⟨5, [7, 8, 9]⟩, ⟨[4, 5, 7, 8, 9], 5, false⟩) ∧
      tryNextPacket dcmpExact ⟨[4, 5, 7, 8, 9], 5, false⟩ =
        (.incomplete, ⟨[4, 5, 7, 8, 9], 5, false⟩)) ∧
    ((appendPacket (fun l => l) ⟨[], some 1⟩ ⟨5, [7, 8, 9]⟩).2 = .ok () ∧
      tryNextPacket dcmpExact (queueBytes ⟨[], 0, true⟩ [5, 4, 5, 7, 8, 9]) =
        (.ok ⟨5, [7, 8, 9]⟩, ⟨[5, 4, 5, 7, 8, 9], 6, true⟩) ∧
      tryNextPacket dcmpExact ⟨[5, 4, 5, 7, 8, 9], 6, true⟩ =
        (.incomplete, ⟨[5, 4, 5, 7, 8, 9], 6, true⟩)) ∧
    ((appendPacket (fun l => l) ⟨[], some 100⟩ ⟨5, [7, 8, 9]⟩).2 = .ok () ∧
      tryNextPacket dcmpExact (queueBytes ⟨[], 0, true⟩ [5, 0, 5, 7, 8, 9]) =
        (.ok ⟨5, [7, 8, 9]⟩, ⟨[5, 0, 5, 7, 8, 9], 6, true⟩) ∧
      tryNextPacket dcmpExact ⟨[5, 0, 5, 7, 8, 9], 6, true⟩ =
        (.incomplete, ⟨[5, 0, 5, 7, 8, 9], 6, true⟩)) :=
  ⟨c4_encode_decode_roundtrip (fun l => l) dcmpExact none ⟨5, [7, 8, 9]⟩
      [4, 5, 7, 8, 9] (fun l => by simp [dcmpExact]) (by decide) (by decide)
      (by decide) (by decide) (by decide),
    c4_encode_decode_roundtrip (fun l => l) dcmpExact (some 1) ⟨5, [7, 8, 9]⟩
      [5, 4, 5, 7, 8, 9] (fun l => by simp [dcmpExact]) (by decide) (by decide)
      (by decide) (by decide) (by decide),
    c4_encode_decode_roundtrip (fun l => l) dcmpExact (some 100) ⟨5, [7, 8, 9]⟩
      [5, 0, 5, 7, 8, 9] (fun l => by simp [dcmpExact]) (by decide) (by decide)
      (by decide) (by decide) (by decide)⟩

theorem tryNextFrame_varint_incomplete
    (dcmp : List Nat → Nat → Except String (List Nat)) (comp : Bool)
    (bs : List Nat) (h : varIntDecode bs = .error .incomplete) :
    tryNextFrame dcmp comp bs = .incomplete := by
  unfold tryNextFrame
  simp only [h]

/-- Every proper front of a frame that decodes successfully and consumes
the whole buffer is reported as incomplete. -/
theorem tryNextFrame_front_incomplete
    (dcmp : List Nat → Nat → Except String (List Nat)) (comp : Bool)
    (pre suf : List Nat) (p : Packet)
    (hfull : tryNextFrame dcmp comp (pre ++ suf) = .ok p (pre ++ suf).length)
    (hsuf : suf ≠ []) :
    tryNextFrame dcmp comp pre = .incomplete := by
  obtain ⟨len, afterLen, hdec, hle, hc, -⟩ := tryNextFrame_ok_inv hfull
  obtain ⟨m, hm1, hm5, hmlen, hr, hdet, hinc⟩ :=
    varIntDecodeGo_spec (pre ++ suf) 0 0 len afterLen (by omega) hdec
  have hAlen : afterLen.length = (pre ++ suf).length - m := by
    rw [hr, List.length_drop]
  have htoNat : len.toNat = afterLen.length := by omega
  have hprelt : pre.length < (pre ++ suf).length := by
    rw [List.length_append]
    cases suf with
    | nil => exact absurd rfl hsuf
    | cons a l => simp
  by_cases hpm : pre.length < m
  · apply tryNextFrame_varint_incomplete
    have h2 := hinc pre.length hpm
    rwa [List.take_left] at h2
  · have h1 : (pre ++ suf).take m = pre.take m := by
      rw [List.take_append_eq_append_take]
      rw [show m - pre.length = 0 from by omega]
      simp
    have hdecpre : varIntDecode pre = .ok (len, pre.drop m) := by
      have h3 := hdet (pre.drop m)
      rw [h1, List.take_append_drop] at h3
      exact h3
    apply tryNextFrame_short dcmp comp pre len (pre.drop m) hdecpre
    rw [List.length_drop]
    omega

/-- Feeding a list of byte chunks to the decoder: queue each chunk in
order and call try_next after each, collecting the observed outcomes. -/
def feedChunks (dcmp : List Nat → Nat → Except String (List Nat)) :
    PacketDecoder → List (List Nat) → List TryNext × PacketDecoder
  | d, [] => ([], d)
  | d, c :: cs =>
    let r := tryNextPacket dcmp (queueBytes d c)
    let rest := feedChunks dcmp r.2 cs
    (r.1 :: rest.1, rest.2)

theorem feedChunks_cons (dcmp : List Nat → Nat → Except String (List Nat))
    (d : PacketDecoder) (c : List Nat) (cs : List (List Nat)) :
    feedChunks dcmp d (c :: cs) =
      ((tryNextPacket dcmp (queueBytes d c)).1 ::
          (feedChunks dcmp (tryNextPacket dcmp (queueBytes d c)).2 cs).1,
        (feedChunks dcmp (tryNextPacket dcmp (queueBytes d c)).2 cs).2) := rfl

theorem feedChunks_front (dcmp : List Nat → Nat → Except String (List Nat))
    (comp : Bool) (bs : List Nat) (p : Packet)
    (hfull : tryNextFrame dcmp comp bs = .ok p bs.length) :
    ∀ chunks : List (List Nat), ∀ pre : List Nat,
      chunks ≠ [] → (∀ ch ∈ chunks, ch ≠ []) → pre ++ chunks.flatten = bs →
      (feedChunks dcmp ⟨pre, 0, comp⟩ chunks).1 =
        List.replicate (chunks.length - 1) TryNext.incomplete ++
          [TryNext.ok p] := by
  intro chunks
  induction chunks with
  | nil => intro pre h; exact absurd rfl h
  | cons c cs ih =>
    intro pre _ hne hjoin
    cases cs with
    | nil =>
      have hpc : pre ++ c = bs := by simpa using hjoin
      rw [feedChunks_cons]
      have hq : queueBytes ⟨pre, 0, comp⟩ c = ⟨bs, 0, comp⟩ := by
        simp [queueBytes, hpc]
      rw [hq]
      have hrem : remaining ⟨bs, 0, comp⟩ = bs := by simp [remaining]
      have hstep : tryNextPacket dcmp ⟨bs, 0, comp⟩ =
          (.ok p, ⟨bs, bs.length, comp⟩) := by
        simp [tryNextPacket, hrem, hfull]
      rw [hstep]
      simp [feedChunks]
    | cons c2 cs2 =>
      have hsub : (pre ++ c) ++ (c2 :: cs2).flatten = bs := by
        simpa [List.append_assoc] using hjoin
      have hc2ne : (c2 :: cs2).flatten ≠ [] := by
        have h2 : c2 ≠ [] := hne c2 (by simp)
        cases c2 with
        | nil => exact absurd rfl h2
        | cons a l => simp
      have hfull2 : tryNextFrame dcmp comp ((pre ++ c) ++ (c2 :: cs2).flatten) =
          .ok p ((pre ++ c) ++ (c2 :: cs2).flatten).length := by
        rw [hsub]; exact hfull
      have hinc := tryNextFrame_front_incomplete dcmp comp (pre ++ c)
        ((c2 :: cs2).flatten) p hfull2 hc2ne
      rw [feedChunks_cons]
      have hq : queueBytes ⟨pre, 0, comp⟩ c = ⟨pre ++ c, 0, comp⟩ := by
        simp [queueBytes]
      rw [hq]
      have hrem : remaining ⟨pre ++ c, 0, comp⟩ = pre ++ c := by
        simp [remaining]
      have hstep : tryNextPacket dcmp ⟨pre ++ c, 0, comp⟩ =
          (.incomplete, ⟨pre ++ c, 0, comp⟩) := by
        simp [tryNextPacket, hrem, hinc]
      rw [hstep]
      have hrec := ih (pre ++ c) (by simp)
        (fun ch hch => hne ch (by simp [hch])) hsub
      simp only [List.length_cons] at hrec
      rw [show cs2.length + 1 - 1 = cs2.length from by omega] at hrec
      simp [hrec, List.replicate_succ]

/-- C6: For every encoded frame and every way of splitting its byte
sequence into nonempty chunks, queueing the chunks one at a time and
calling try_next after each yields incomplete until the last chunk
arrives, and then yields the same decoded packet as queueing all the
bytes in a single call. -/
theorem c6_partial_delivery (dcmp : List Nat → Nat → Except String (List Nat))
    (comp : Bool) (bs : List Nat) (p : Packet) (chunks : List (List Nat))
    (hfull : tryNextFrame dcmp comp bs = .ok p bs.length)
    (hne : chunks ≠ [])
    (hchunks : ∀ ch ∈ chunks, ch ≠ [])
    (hjoin : chunks.flatten = bs) :
    (feedChunks dcmp ⟨[], 0, comp⟩ chunks).1 =
      List.replicate (chunks.length - 1) TryNext.incomplete ++
        [TryNext.ok p] ∧
    (tryNextPacket dcmp (queueBytes ⟨[], 0, comp⟩ bs)).1 = .ok p := by
  constructor
  · exact feedChunks_front dcmp comp bs p hfull chunks [] hne hchunks
      (by simpa using hjoin)
  · simp [tryNextPacket, queueBytes, remaining, hfull]

theorem c6_partial_delivery_witness :
    (feedChunks dcmpExact ⟨[], 0, false⟩ [[2], [7, 9]]).1 =
      List.replicate 1 TryNext.incomplete ++ [TryNext.ok ⟨7, [9]⟩] ∧
    (tryNextPacket dcmpExact (queueBytes ⟨[], 0, false⟩ [2, 7, 9])).1 =
      .ok ⟨7, [9]⟩ :=
  c6_partial_delivery dcmpExact false [2, 7, 9] ⟨7, [9]⟩ [[2], [7, 9]]
    rfl (by decide) (by decide) rfl

/-!
## Weather helpers

Translated from `crates/valence/src/instance/weather.rs`.  The ECS packet
sink (`write_packet`) is modelled as the list of packets written so far,
to which each helper appends.  Levels are `f32` in the source; the claims
are restricted to non-NaN inputs, on which Rust `f32::clamp` with the
constant bounds `0.0` and `1.0` uses only order comparisons, so levels are
modelled as rationals with an order-exact clamp.
-/

/-- Rust `clamp` from the standard library, for a linear order: `if self <
min [return] min else if self > max [return] max else self`. -/
def rustClamp (x lo hi : ℚ) : ℚ :=
  if x < lo then lo else if x > hi then hi else x

def WEATHER_LEVEL_MIN : ℚ := 0

def WEATHER_LEVEL_MAX : ℚ := 1

/-- The game event kinds used by the weather helpers. -/
inductive GameEventKind where
  | beginRaining
  | endRaining
  | rainLevelChange
  | thunderLevelChange
deriving DecidableEq, Repr

/-- The `GameStateChangeS2c` packet: an event kind and an `f32` value. -/
structure GameStateChangeS2c where
  kind : GameEventKind
  value : ℚ
deriving DecidableEq, Repr

/-- The weather component: optional rain and thunder levels. -/
structure Weather where
  rain : Option ℚ
  thunder : Option ℚ

/-- `Instance::set_rain_level`: writes a rain-level game state change with
the level clamped to the weather level bounds. -/
def instanceSetRainLevel (sent : List GameStateChangeS2c) (level : ℚ) :
    List GameStateChangeS2c :=
  sent ++ [⟨.rainLevelChange, rustClamp level WEATHER_LEVEL_MIN WEATHER_LEVEL_MAX⟩]

/-- `Instance::set_thunder_level`. -/
def instanceSetThunderLevel (sent : List GameStateChangeS2c) (level : ℚ) :
    List GameStateChangeS2c :=
  sent ++ [⟨.thunderLevelChange, rustClamp level WEATHER_LEVEL_MIN WEATHER_LEVEL_MAX⟩]

/-- `Client::set_rain_level` (textually identical to the Instance one). -/
def clientSetRainLevel (sent : List GameStateChangeS2c) (level : ℚ) :
    List GameStateChangeS2c :=
  sent ++ [⟨.rainLevelChange, rustClamp level WEATHER_LEVEL_MIN WEATHER_LEVEL_MAX⟩]

/-- `Client::set_thunder_level`. -/
def clientSetThunderLevel (sent : List GameStateChangeS2c) (level : ℚ) :
    List GameStateChangeS2c :=
  sent ++ [⟨.thunderLevelChange, rustClamp level WEATHER_LEVEL_MIN WEATHER_LEVEL_MAX⟩]

/-- `Instance::set_weather`: the rain level event if the rain field is
set, then the thunder level event if the thunder field is set. -/
def instanceSetWeather (sent : List GameStateChangeS2c) (w : Weather) :
    List GameStateChangeS2c :=
  let s1 := match w.rain with
    | some rainLevel => instanceSetRainLevel sent rainLevel
    | none => sent
  match w.thunder with
  | some thunderLevel => instanceSetThunderLevel s1 thunderLevel
  | none => s1

/-- `Client::set_weather`. -/
def clientSetWeather (sent : List GameStateChangeS2c) (w : Weather) :
    List GameStateChangeS2c :=
  let s1 := match w.rain with
    | some rainLevel => clientSetRainLevel sent rainLevel
    | none => sent
  match w.thunder with
  | some thunderLevel => clientSetThunderLevel s1 thunderLevel
  | none => s1

theorem rustClamp_mem (x lo hi : ℚ) (h : lo ≤ hi) :
    lo ≤ rustClamp x lo hi ∧ rustClamp x lo hi ≤ hi := by
  unfold rustClamp
  split_ifs with h1 h2 <;> constructor <;> linarith

theorem rustClamp_eq_self (x lo hi : ℚ) (h1 : lo ≤ x) (h2 : x ≤ hi) :
    rustClamp x lo hi = x := by
  unfold rustClamp
  split_ifs with ha hb
  · linarith
  · linarith
  · rfl

/-- C9: For every non-NaN f32 level, the four level setters write a
GameStateChangeS2c packet whose value field lies in the closed interval
from 0 to 1, equal to the input clamped to that range; levels already in
range are sent unchanged. -/
theorem c9_weather_level_clamp (sent : List GameStateChangeS2c) (level : ℚ) :
    (instanceSetRainLevel sent level = sent ++
      [⟨.rainLevelChange, rustClamp level WEATHER_LEVEL_MIN WEATHER_LEVEL_MAX⟩]) ∧
    (instanceSetThunderLevel sent level = sent ++
      [⟨.thunderLevelChange, rustClamp level WEATHER_LEVEL_MIN WEATHER_LEVEL_MAX⟩]) ∧
    (clientSetRainLevel sent level = sent ++
      [⟨.rainLevelChange, rustClamp level WEATHER_LEVEL_MIN WEATHER_LEVEL_MAX⟩]) ∧
    (clientSetThunderLevel sent level = sent ++
      [⟨.thunderLevelChange, rustClamp level WEATHER_LEVEL_MIN WEATHER_LEVEL_MAX⟩]) ∧
    WEATHER_LEVEL_MIN ≤ rustClamp level WEATHER_LEVEL_MIN WEATHER_LEVEL_MAX ∧
    rustClamp level WEATHER_LEVEL_MIN WEATHER_LEVEL_MAX ≤ WEATHER_LEVEL_MAX ∧
    (WEATHER_LEVEL_MIN ≤ level → level ≤ WEATHER_LEVEL_MAX →
      rustClamp level WEATHER_LEVEL_MIN WEATHER_LEVEL_MAX = level) := by
  have hmem := rustClamp_mem level WEATHER_LEVEL_MIN WEATHER_LEVEL_MAX
    (by unfold WEATHER_LEVEL_MIN WEATHER_LEVEL_MAX; norm_num)
  exact ⟨rfl, rfl, rfl, rfl, hmem.1, hmem.2,
    fun h1 h2 => rustClamp_eq_self level WEATHER_LEVEL_MIN WEATHER_LEVEL_MAX h1 h2⟩

theorem c9_weather_level_clamp_witness :
    WEATHER_LEVEL_MIN ≤ rustClamp 1 WEATHER_LEVEL_MIN WEATHER_LEVEL_MAX ∧
    rustClamp 1 WEATHER_LEVEL_MIN WEATHER_LEVEL_MAX ≤ WEATHER_LEVEL_MAX ∧
    rustClamp 1 WEATHER_LEVEL_MIN WEATHER_LEVEL_MAX = 1 :=
  ⟨(c9_weather_level_clamp [] 1).2.2.2.2.1,
    (c9_weather_level_clamp [] 1).2.2.2.2.2.1,
    (c9_weather_level_clamp [] 1).2.2.2.2.2.2 zero_le_one (le_refl 1)⟩

/-- C10: set_weather writes a rain-level packet if and only if the rain
field is set, then a thunder-level packet if and only if the thunder field
is set, in that order; when both fields are absent no packet is written. -/
theorem c10_set_weather_order (sent : List GameStateChangeS2c) (w : Weather) :
    instanceSetWeather sent w = sent ++
      (w.rain.toList.map fun r =>
        ⟨.rainLevelChange, rustClamp r WEATHER_LEVEL_MIN WEATHER_LEVEL_MAX⟩) ++
      (w.thunder.toList.map fun th =>
        ⟨.thunderLevelChange, rustClamp th WEATHER_LEVEL_MIN WEATHER_LEVEL_MAX⟩) ∧
    clientSetWeather sent w = sent ++
      (w.rain.toList.map fun r =>
        ⟨.rainLevelChange, rustClamp r WEATHER_LEVEL_MIN WEATHER_LEVEL_MAX⟩) ++
      (w.thunder.toList.map fun th =>
        ⟨.thunderLevelChange, rustClamp th WEATHER_LEVEL_MIN WEATHER_LEVEL_MAX⟩) := by
  obtain ⟨r, th⟩ := w
  cases r <;> cases th <;>
    simp [instanceSetWeather, clientSetWeather, instanceSetRainLevel,
      instanceSetThunderLevel, clientSetRainLevel, clientSetThunderLevel]

end Valence
